import Mathlib

/-!
Verification of `nmmn/lsd.py` (array/list/set utilities).

Shallow embedding of the functions of `nmmn/lsd.py` and proofs of the
spec's claims about them.  Numeric array elements are modelled as values
of type `NumVal` (a rational, NaN, +Inf or -Inf) where NaN/Inf matter,
and as plain rationals elsewhere.  Arrays are Lean lists.  Fallible
Python code (raising exceptions) is modelled with `Except String`.
Randomness (`scipy.random.randint`) is modelled by passing the drawn
index array as an explicit argument, constrained by the predicate
`randintOk` describing the generator's possible outputs.
-/

namespace Lsd

/-- An element of a numeric (float) array: a finite rational, NaN,
+Inf or -Inf.  Float arithmetic itself is not needed by the claims;
only the `isnan`/`isinf` classification of elements is. -/
inductive NumVal where
  | nan : NumVal
  | inf : NumVal
  | ninf : NumVal
  | fin : ℚ → NumVal
deriving DecidableEq, Repr

/-- Model of `numpy.isnan` on one element. -/
def NumVal.isnan : NumVal → Bool
  | .nan => true
  | _ => false

/-- Model of `numpy.isinf` on one element (true for both +Inf and -Inf). -/
def NumVal.isinf : NumVal → Bool
  | .inf => true
  | .ninf => true
  | _ => false

/-- Helper for `npwhere`: indices `k, k+1, ...` of the elements of the
list satisfying `p`, in increasing order. -/
def npwhereAux (p : α → Bool) : List α → Nat → List Nat
  | [], _ => []
  | a :: t, k => if p a then k :: npwhereAux p t (k + 1) else npwhereAux p t (k + 1)

/-- Model of `numpy.where(cond)[0]` for a 1-d boolean condition: the indices of the
elements satisfying the predicate, in increasing order. -/
def npwhere (p : α → Bool) (x : List α) : List Nat :=
  npwhereAux p x 0

/-- Helper for `npdelete`: keep the elements whose position (counted from
`k`) is not listed in `idxs`. -/
def npdeleteAux (idxs : List Nat) : List α → Nat → List α
  | [], _ => []
  | a :: t, k =>
      if k ∈ idxs then npdeleteAux idxs t (k + 1)
      else a :: npdeleteAux idxs t (k + 1)

/-- Model of `numpy.delete(x, idxs)`: a new array with the elements at the listed
positions removed. -/
def npdelete (x : List α) (idxs : List Nat) : List α :=
  npdeleteAux idxs x 0

/-- Embedding of `delnan(x)`: `i = numpy.where(numpy.isnan(x)==True)`, then
`numpy.delete(x, i)`. -/
def delnan (x : List NumVal) : List NumVal :=
  npdelete x (npwhere NumVal.isnan x)

/-- Embedding of `delweird(x)`: `i = numpy.where((numpy.isnan(x)==True)|(numpy.isinf(x)==True))`,
then `numpy.delete(x, i)`. -/
def delweird (x : List NumVal) : List NumVal :=
  npdelete x (npwhere (fun a => a.isnan || a.isinf) x)

/- ## Lemmas about `npwhere` / `npdelete` -/

theorem mem_npwhereAux {p : α → Bool} (d : α) :
    ∀ (x : List α) (k i : Nat),
      i ∈ npwhereAux p x k ↔ ∃ m, m < x.length ∧ i = k + m ∧ p (x.getD m d) = true := by
  intro x
  induction x with
  | nil => intro k i; simp [npwhereAux]
  | cons a t ih =>
      intro k i
      by_cases hp : p a = true
      · simp only [npwhereAux, hp, if_pos, List.mem_cons, ih]
        constructor
        · rintro (rfl | ⟨m, hm, rfl, hpm⟩)
          · exact ⟨0, by simp, by simp, by simpa using hp⟩
          · exact ⟨m + 1, by simpa using hm, by omega, by simpa using hpm⟩
        · rintro ⟨m, hm, rfl, hpm⟩
          cases m with
          | zero => left; omega
          | succ m =>
              right
              exact ⟨m, by simpa using hm, by omega, by simpa using hpm⟩
      · simp only [npwhereAux, hp, if_neg, Bool.false_eq_true, not_false_iff, ih]
        constructor
        · rintro ⟨m, hm, rfl, hpm⟩
          exact ⟨m + 1, by simpa using hm, by omega, by simpa using hpm⟩
        · rintro ⟨m, hm, rfl, hpm⟩
          cases m with
          | zero => simp at hpm; exact absurd hpm hp
          | succ m =>
              exact ⟨m, by simpa using hm, by omega, by simpa using hpm⟩

theorem mem_npwhere {p : α → Bool} (d : α) {x : List α} {i : Nat} :
    i ∈ npwhere p x ↔ i < x.length ∧ p (x.getD i d) = true := by
  rw [npwhere, mem_npwhereAux d]
  constructor
  · rintro ⟨m, hm, rfl, hpm⟩; exact ⟨by omega, by simpa using hpm⟩
  · rintro ⟨hi, hpi⟩; exact ⟨i, hi, by omega, hpi⟩

theorem npwhereAux_lower {p : α → Bool} :
    ∀ (x : List α) (k i : Nat), i ∈ npwhereAux p x k → k ≤ i := by
  intro x
  induction x with
  | nil => intro k i h; simp [npwhereAux] at h
  | cons a t ih =>
      intro k i h
      by_cases hp : p a = true
      · simp only [npwhereAux, hp, if_pos, List.mem_cons] at h
        rcases h with rfl | h
        · exact Nat.le_refl i
        · have := ih (k + 1) i h; omega
      · simp only [npwhereAux, hp, if_neg, Bool.false_eq_true, not_false_iff] at h
        have := ih (k + 1) i h; omega

/-- Lemma: `npdeleteAux` only consults membership of positions `≥ k` in `idxs`. -/
theorem npdeleteAux_congr {idxs idxs' : List Nat} :
    ∀ (x : List α) (k : Nat),
      (∀ j, k ≤ j → (j ∈ idxs ↔ j ∈ idxs')) →
      npdeleteAux idxs x k = npdeleteAux idxs' x k := by
  intro x
  induction x with
  | nil => intro k _; rfl
  | cons a t ih =>
      intro k h
      have hk : (k ∈ idxs) = (k ∈ idxs') := propext (h k (Nat.le_refl k))
      have ht : ∀ j, k + 1 ≤ j → (j ∈ idxs ↔ j ∈ idxs') := by
        intro j hj; exact h j (by omega)
      simp only [npdeleteAux, hk, ih (k + 1) ht]

/-- Deleting exactly the positions where `p` holds is filtering by `!p`. -/
theorem npdeleteAux_npwhereAux (p : α → Bool) :
    ∀ (x : List α) (k : Nat),
      npdeleteAux (npwhereAux p x k) x k = x.filter (fun a => !p a) := by
  intro x
  induction x with
  | nil => intro k; rfl
  | cons a t ih =>
      intro k
      by_cases hp : p a = true
      · have hmem : k ∈ npwhereAux p (a :: t) k := by
          simp [npwhereAux, hp]
        have hcongr : npdeleteAux (npwhereAux p (a :: t) k) t (k + 1)
            = npdeleteAux (npwhereAux p t (k + 1)) t (k + 1) := by
          apply npdeleteAux_congr
          intro j hj
          simp only [npwhereAux, hp, if_pos, List.mem_cons]
          have : j ≠ k := by omega
          simp [this]
        rw [npdeleteAux, if_pos hmem, hcongr, ih (k + 1), List.filter_cons]
        simp [hp]
      · have hnw : npwhereAux p (a :: t) k = npwhereAux p t (k + 1) := by
          simp [npwhereAux, hp]
        have hmem : k ∉ npwhereAux p (a :: t) k := by
          rw [hnw]
          intro hc
          have := npwhereAux_lower t (k + 1) k hc
          omega
        rw [npdeleteAux, if_neg hmem, hnw, ih (k + 1), List.filter_cons]
        simp [hp]

theorem npdelete_npwhere (p : α → Bool) (x : List α) :
    npdelete x (npwhere p x) = x.filter (fun a => !p a) :=
  npdeleteAux_npwhereAux p x 0

theorem mem_npwhere_get {p : α → Bool} {x : List α} {i : Nat} :
    i ∈ npwhere p x ↔ ∃ h : i < x.length, p (x.get ⟨i, h⟩) = true := by
  cases x with
  | nil => simp [npwhere, npwhereAux]
  | cons a t =>
      rw [mem_npwhere a]
      constructor
      · rintro ⟨hi, hp⟩
        refine ⟨hi, ?_⟩
        rw [List.get_eq_getElem, ← List.getD_eq_getElem _ a hi]
        exact hp
      · rintro ⟨hi, hp⟩
        refine ⟨hi, ?_⟩
        rw [List.getD_eq_getElem _ a hi]
        rw [List.get_eq_getElem] at hp
        exact hp

theorem npwhereAux_pairwise {p : α → Bool} :
    ∀ (x : List α) (k : Nat), List.Pairwise (· < ·) (npwhereAux p x k) := by
  intro x
  induction x with
  | nil => intro k; simp [npwhereAux]
  | cons a t ih =>
      intro k
      by_cases hp : p a = true
      · simp only [npwhereAux, hp, if_pos]
        refine List.Pairwise.cons ?_ (ih (k + 1))
        intro j hj
        have := npwhereAux_lower t (k + 1) j hj
        omega
      · simp only [npwhereAux, hp, if_neg, Bool.false_eq_true, not_false_iff]
        exact ih (k + 1)

/- ## Set-membership index functions -/

/-- Embedding of `cmset_and(x,y)`: loop over `x` with a counter `i`, appending `i`
whenever `x[i]` is present in `y` (`if xx in y: idel.append(i)`); this is
exactly the indices where the membership predicate holds, in `x`'s
order. -/
def cmset_and [DecidableEq α] (x y : List α) : List Nat :=
  npwhere (fun xx => decide (xx ∈ y)) x

/-- Embedding of `cmset_not(x,y)`: the same loop with the test
`if xx not in y: idel.append(i)`. -/
def cmset_not [DecidableEq α] (x y : List α) : List Nat :=
  npwhere (fun xx => decide (xx ∉ y)) x

/- ## Claims C6 and C7 -/

/-- C6: `cmset_and(x,y)` returns exactly the indices `i` of `x` whose
element occurs in `y`, and `cmset_not(x,y)` exactly those whose element
does not; both are in increasing (`x`) order, and together they form a
complementary partition of `range(len(x))`. -/
theorem cmset_and_not_partition [DecidableEq α] (x y : List α) :
    (∀ i, i ∈ cmset_and x y ↔ ∃ h : i < x.length, x.get ⟨i, h⟩ ∈ y) ∧
    (∀ i, i ∈ cmset_not x y ↔ ∃ h : i < x.length, x.get ⟨i, h⟩ ∉ y) ∧
    List.Pairwise (· < ·) (cmset_and x y) ∧
    List.Pairwise (· < ·) (cmset_not x y) := by
  refine ⟨?_, ?_, npwhereAux_pairwise x 0, npwhereAux_pairwise x 0⟩
  · intro i
    rw [cmset_and, mem_npwhere_get]
    exact exists_congr fun h => by simp
  · intro i
    rw [cmset_not, mem_npwhere_get]
    exact exists_congr fun h => by simp

/-- C7: `delnan(x)` is `x` with exactly the NaN entries removed and the
relative order of the remaining elements preserved, and `delweird(x)` is
`x` with exactly the NaN, +Inf and -Inf entries removed, likewise
preserving order (both are the evident filters of `x`). -/
theorem delnan_delweird_filter (x : List NumVal) :
    delnan x = x.filter (fun a => !a.isnan) ∧
    delweird x = x.filter (fun a => !(a.isnan || a.isinf)) :=
  ⟨npdelete_npwhere _ x, npdelete_npwhere _ x⟩

/- ## `cmsetsort_and` -/

/-- Model of `ndarray.item()` with no argument: converts an array with exactly one
element to a Python scalar, and raises `ValueError` for any other size
(zero elements or several). -/
def item : List Nat → Except String Nat
  | [a] => .ok a
  | _ => .error "ValueError: can only convert an array of size 1 to a Python scalar"

/-- Embedding of `cmsetsort_and(x,y)`: for each `yy` of `y` in order, computes
`i = numpy.where(x==yy)` and appends `i[0].item()` to the result list.
`numpy.where(x==yy)[0]` is the array of indices of `x` equal to `yy`, and
`.item()` raises unless that array has exactly one element. -/
def cmsetsort_and [DecidableEq α] (x : List α) : List α → Except String (List Nat)
  | [] => .ok []
  | yy :: t => do
      let i ← item (npwhere (fun a => decide (a = yy)) x)
      let rest ← cmsetsort_and x t
      return i :: rest

theorem npwhereAux_length {p : α → Bool} :
    ∀ (x : List α) (k : Nat), (npwhereAux p x k).length = x.countP p := by
  intro x
  induction x with
  | nil => intro k; simp [npwhereAux]
  | cons a t ih =>
      intro k
      by_cases hp : p a = true
      · simp [npwhereAux, hp, ih (k + 1), List.countP_cons]
      · simp [npwhereAux, hp, ih (k + 1), List.countP_cons]

theorem npwhere_length {p : α → Bool} (x : List α) :
    (npwhere p x).length = x.countP p :=
  npwhereAux_length x 0

theorem npwhere_singleton_of_countP_one {p : α → Bool} {x : List α}
    (h : x.countP p = 1) :
    ∃ i, npwhere p x = [i] ∧ ∃ hx : i < x.length, p (x.get ⟨i, hx⟩) = true := by
  have hlen : (npwhere p x).length = 1 := by rw [npwhere_length]; exact h
  obtain ⟨i, hi⟩ := List.length_eq_one.mp hlen
  refine ⟨i, hi, ?_⟩
  have hm : i ∈ npwhere p x := by rw [hi]; exact List.mem_singleton_self i
  rwa [mem_npwhere_get] at hm

theorem item_error_of_length_ne_one {l : List Nat} (h : l.length ≠ 1) :
    item l = Except.error "ValueError: can only convert an array of size 1 to a Python scalar" := by
  match l with
  | [] => rfl
  | [a] => simp at h
  | a :: b :: t => rfl

/-- When every element of `y` matches exactly one position of `x`,
`cmsetsort_and` succeeds and the indices pick out `y`'s values. -/
theorem cmsetsort_and_ok [DecidableEq α] (x : List α) :
    ∀ y : List α, (∀ yy ∈ y, x.countP (fun a => decide (a = yy)) = 1) →
      ∃ l, cmsetsort_and x y = Except.ok l ∧ l.length = y.length ∧
        ∀ k, (hk : k < y.length) → ∃ hx : l.getD k 0 < x.length,
          x.get ⟨l.getD k 0, hx⟩ = y.get ⟨k, hk⟩ := by
  intro y
  induction y with
  | nil =>
      intro _
      exact ⟨[], rfl, rfl, fun k hk => absurd hk (by simp)⟩
  | cons yy t ih =>
      intro h
      have hc : x.countP (fun a => decide (a = yy)) = 1 := h yy (List.mem_cons_self yy t)
      obtain ⟨i, hnp, hx, hpi⟩ := npwhere_singleton_of_countP_one hc
      have hval : x.get ⟨i, hx⟩ = yy := of_decide_eq_true hpi
      obtain ⟨l, hl, hlen, hprop⟩ := ih (fun z hz => h z (List.mem_cons_of_mem yy hz))
      refine ⟨i :: l, ?_, by simp [hlen], ?_⟩
      · simp only [cmsetsort_and, hnp, item, hl]
        rfl
      · intro k hk
        cases k with
        | zero =>
            refine ⟨by simpa using hx, ?_⟩
            simpa using hval
        | succ k =>
            have hk' : k < t.length := by simpa using hk
            obtain ⟨hxk, hvk⟩ := hprop k hk'
            refine ⟨by simpa using hxk, ?_⟩
            simpa using hvk

/-- When some element of `y` matches a number of positions of `x`
different from one (zero matches, or several), `cmsetsort_and` raises. -/
theorem cmsetsort_and_err [DecidableEq α] (x : List α) :
    ∀ y : List α, (∃ yy ∈ y, x.countP (fun a => decide (a = yy)) ≠ 1) →
      ∃ s, cmsetsort_and x y = Except.error s := by
  intro y
  induction y with
  | nil => rintro ⟨yy, hyy, -⟩; simp at hyy
  | cons yy t ih =>
      rintro ⟨z, hz, hcz⟩
      by_cases hc : x.countP (fun a => decide (a = yy)) = 1
      · obtain ⟨i, hnp, -⟩ := npwhere_singleton_of_countP_one hc
        have hzt : z ∈ t := by
          rcases List.mem_cons.mp hz with rfl | hzt
          · exact absurd hc hcz
          · exact hzt
        obtain ⟨s, hs⟩ := ih ⟨z, hzt, hcz⟩
        refine ⟨s, ?_⟩
        simp only [cmsetsort_and, hnp, item, hs]
        rfl
      · have herr := item_error_of_length_ne_one
          (l := npwhere (fun a => decide (a = yy)) x) (by rwa [npwhere_length])
        refine ⟨"ValueError: can only convert an array of size 1 to a Python scalar", ?_⟩
        simp only [cmsetsort_and, herr]
        rfl

/-- C2 (amended): for all arrays `x` and `y` such that every element of `y`
occurs exactly once in `x`, `cmsetsort_and(x,y)` returns one index per
element of `y`, in `y`'s order, each pointing to the element of `x` equal to
the corresponding `y` element (so `x[result] == y` elementwise); when some
`y` element occurs zero times or several times in `x`, the `.item()`
conversion raises `ValueError` instead of returning a single match. -/
theorem cmsetsort_and_unique_match {α : Type} [DecidableEq α] (x y : List α) :
    ((∀ yy ∈ y, x.countP (fun a => decide (a = yy)) = 1) →
      ∃ l, cmsetsort_and x y = Except.ok l ∧ l.length = y.length ∧
        ∀ k, (hk : k < y.length) → ∃ hx : l.getD k 0 < x.length,
          x.get ⟨l.getD k 0, hx⟩ = y.get ⟨k, hk⟩) ∧
    ((∃ yy ∈ y, x.countP (fun a => decide (a = yy)) ≠ 1) →
      ∃ s, cmsetsort_and x y = Except.error s) :=
  ⟨cmsetsort_and_ok x y, cmsetsort_and_err x y⟩

/-- C2 witness: both halves of the amended claim at concrete inputs. -/
theorem cmsetsort_and_unique_match_witness :
    (∃ l, cmsetsort_and [(10:ℚ), 20, 30] [30, 10] = Except.ok l ∧
        l.length = ([30, 10] : List ℚ).length ∧
        ∀ k, (hk : k < ([30, 10] : List ℚ).length) →
          ∃ hx : l.getD k 0 < ([(10:ℚ), 20, 30] : List ℚ).length,
            ([(10:ℚ), 20, 30] : List ℚ).get ⟨l.getD k 0, hx⟩ =
              ([30, 10] : List ℚ).get ⟨k, hk⟩) ∧
    (∃ s, cmsetsort_and [(1:ℚ), 1] [2] = Except.error s) :=
  ⟨(cmsetsort_and_unique_match [10, 20, 30] [30, 10]).1 (by decide),
   (cmsetsort_and_unique_match [1, 1] [2]).2 ⟨2, by decide, by decide⟩⟩

/-- C2 counterexample: the original claim says that when `x` contains
several elements equal to a `y` element (every `y` element still occurring
somewhere in `x`) one match is returned; in fact `.item()` raises
`ValueError` on the two-element index array, so no result is returned. -/
theorem cmsetsort_and_dup_raises :
    ((1:ℚ) ∈ [(1:ℚ), 1]) ∧
    cmsetsort_and [(1:ℚ), 1] [1] =
      Except.error "ValueError: can only convert an array of size 1 to a Python scalar" :=
  ⟨by decide, by rfl⟩

/-- C3: for all arrays `x` and `y`, if some element of `y` does not occur in
`x`, then `cmsetsort_and(x,y)` raises an error rather than returning a
result. -/
theorem cmsetsort_and_raises_of_missing {α : Type} [DecidableEq α] (x y : List α)
    (h : ∃ yy ∈ y, yy ∉ x) :
    ∃ s, cmsetsort_and x y = Except.error s := by
  obtain ⟨yy, hyy, hmem⟩ := h
  refine cmsetsort_and_err x y ⟨yy, hyy, ?_⟩
  have hzero : x.countP (fun a => decide (a = yy)) = 0 := by
    rw [List.countP_eq_zero]
    intro a ha
    simp only [decide_eq_true_eq]
    rintro rfl
    exact hmem ha
  omega

/-- C3 witness: `3` is not in `[1, 2]`, and the call indeed errors. -/
theorem cmsetsort_and_raises_of_missing_witness :
    ∃ s, cmsetsort_and [(1:ℚ), 2] [3] = Except.error s :=
  cmsetsort_and_raises_of_missing [1, 2] [3] ⟨3, by decide, by decide⟩

/- ## `norm` -/

/-- Model of `x.max()` of a 1-d numpy array: the greatest element.  numpy raises on
an empty array; that case is excluded by the claims' hypotheses, and we
return `0` there. -/
def npmax : List ℚ → ℚ
  | [] => 0
  | a :: t => t.foldl max a

/-- Embedding of `norm(x1, x2=None)`.  The branch test is `if x2==None:`.  With the
default `x2 = None` the comparison is the Python boolean `True` and the
first branch runs, returning `x1/x1.max()`.  With a numpy array `x2`,
`x2 == None` is the elementwise boolean array `[False, ..., False]`;
using it as an `if` condition yields `False` when it has exactly one
element, and raises `ValueError` (ambiguous truth value of a multi-element
array) otherwise — the second branch `x1*x2.max()/x1.max()` is therefore
reachable only for a one-element `x2`. -/
def norm (x1 : List ℚ) (x2 : Option (List ℚ)) : Except String (List ℚ) :=
  match x2 with
  | none => .ok (x1.map (fun a => a / npmax x1))
  | some l =>
      if l.length = 1 then .ok (x1.map (fun a => a * npmax l / npmax x1))
      else .error "ValueError: The truth value of an array with more than one element is ambiguous. Use a.any() or a.all()"

/-- C4: `norm(x1)` does divide `x1` elementwise by its maximum, but the
two-argument form contradicts the claim (and the function's own
docstring): because the dispatch is `if x2==None:`, any `x2` with more
than one element makes the `if` raise `ValueError`, so
`norm([2,4],[1,2])` raises instead of returning `[1,2]`. -/
theorem norm_two_arg_raises :
    norm [(2:ℚ), 4] none = Except.ok [1/2, 1] ∧
    norm [(2:ℚ), 4] (some [1, 2]) =
      Except.error "ValueError: The truth value of an array with more than one element is ambiguous. Use a.any() or a.all()" := by
  constructor
  · show Except.ok ([(2:ℚ), 4].map (fun a => a / npmax [(2:ℚ), 4])) = _
    norm_num [npmax]
  · rfl

/- ## `search` -/

/-- Model of `numpy.abs` on one element. -/
def npabs (q : ℚ) : ℚ := if q < 0 then -q else q

theorem npabs_eq_abs (q : ℚ) : npabs q = |q| := by
  by_cases h : q < 0
  · rw [npabs, if_pos h, abs_of_neg h]
  · rw [npabs, if_neg h, abs_of_nonneg (le_of_not_lt h)]

/-- Model of `numpy.argmin`: the first index attaining the minimum of the array.
numpy raises on an empty array; the claims only use nonempty arrays, and
the empty case returns `0`. -/
def argmin : List ℚ → Nat
  | [] => 0
  | [_] => 0
  | a :: b :: t =>
      if a ≤ (b :: t).getD (argmin (b :: t)) 0 then 0 else argmin (b :: t) + 1

theorem argmin_spec :
    ∀ x : List ℚ, x ≠ [] →
      argmin x < x.length ∧
      (∀ j < x.length, x.getD (argmin x) 0 ≤ x.getD j 0) ∧
      (∀ j < argmin x, x.getD (argmin x) 0 < x.getD j 0) := by
  intro x
  induction x with
  | nil => intro h; exact absurd rfl h
  | cons a t ih =>
      intro _
      cases t with
      | nil =>
          refine ⟨by simp [argmin], ?_, ?_⟩
          · intro j hj
            have hj0 : j = 0 := by simpa using hj
            subst hj0
            simp [argmin]
          · intro j hj
            simp [argmin] at hj
      | cons b t' =>
          obtain ⟨hm, hmin, hfirst⟩ := ih (by simp)
          by_cases hle : a ≤ (b :: t').getD (argmin (b :: t')) 0
          · have harg : argmin (a :: b :: t') = 0 := by
              rw [argmin, if_pos hle]
            refine ⟨by simp [harg], ?_, ?_⟩
            · intro j hj
              rw [harg, List.getD_cons_zero]
              cases j with
              | zero => simp
              | succ j =>
                  rw [List.getD_cons_succ]
                  exact le_trans hle (hmin j (by simpa using hj))
            · intro j hj
              rw [harg] at hj
              omega
          · have harg : argmin (a :: b :: t') = argmin (b :: t') + 1 := by
              rw [argmin, if_neg hle]
            have hlt : (b :: t').getD (argmin (b :: t')) 0 < a := lt_of_not_le hle
            refine ⟨by simpa [harg] using hm, ?_, ?_⟩
            · intro j hj
              rw [harg, List.getD_cons_succ]
              cases j with
              | zero => rw [List.getD_cons_zero]; exact le_of_lt hlt
              | succ j =>
                  rw [List.getD_cons_succ]
                  exact hmin j (by simpa using hj)
            · intro j hj
              rw [harg] at hj
              rw [harg, List.getD_cons_succ]
              cases j with
              | zero => rw [List.getD_cons_zero]; exact hlt
              | succ j =>
                  rw [List.getD_cons_succ]
                  exact hfirst j (by omega)

/-- The `xref` argument of `search`: a Python scalar or a sequence of
reference values. -/
inductive Ref where
  | scalar : ℚ → Ref
  | seq : List ℚ → Ref
deriving DecidableEq, Repr

/-- Model of `numpy.size(xref)`: `1` for a scalar, the length for a sequence. -/
def Ref.size : Ref → Nat
  | .scalar _ => 1
  | .seq l => l.length

/-- The scalar that `xref` broadcasts to when `numpy.size(xref) == 1`:
the scalar itself, or the sole element of a singleton sequence. -/
def Ref.bval : Ref → ℚ
  | .scalar q => q
  | .seq l => l.getD 0 0

/-- The result of `search`: a single index (scalar branch) or a list of
indices (loop branch). -/
inductive SearchResult where
  | idx : Nat → SearchResult
  | idxs : List Nat → SearchResult
deriving DecidableEq, Repr

/-- Embedding of `search(xref, x)`: if `numpy.size(xref)==1`, return
`(numpy.abs(x-xref)).argmin()` — a single index, with a size-1 `xref`
broadcast over `x`; otherwise loop over `xref`, appending
`(numpy.abs(x-y)).argmin()` for each `y`.  Note the dispatch is on
`size(xref)==1`, not on the type of `xref`, so a singleton sequence also
takes the scalar branch. -/
def search (xref : Ref) (x : List ℚ) : SearchResult :=
  match xref with
  | .scalar q => .idx (argmin (x.map (fun a => npabs (a - q))))
  | .seq l =>
      if l.length = 1 then .idx (argmin (x.map (fun a => npabs (a - l.getD 0 0))))
      else .idxs (l.map (fun y => argmin (x.map (fun a => npabs (a - y)))))

/-- Specification predicate: `i` is the index of the element of `x` nearest to `r`: in bounds,
minimizing the absolute difference, and the lowest such index on ties. -/
def nearest (x : List ℚ) (r : ℚ) (i : Nat) : Prop :=
  i < x.length ∧
  (∀ j < x.length, |x.getD i 0 - r| ≤ |x.getD j 0 - r|) ∧
  (∀ j < i, |x.getD i 0 - r| < |x.getD j 0 - r|)

theorem getD_map_npabs (x : List ℚ) (r : ℚ) {j : Nat} (hj : j < x.length) :
    (x.map (fun a => npabs (a - r))).getD j 0 = |x.getD j 0 - r| := by
  have hj' : j < (x.map (fun a => npabs (a - r))).length := by simpa using hj
  rw [List.getD_eq_getElem _ _ hj', List.getD_eq_getElem _ _ hj, List.getElem_map,
    npabs_eq_abs]

theorem argmin_nearest (x : List ℚ) (hx : x ≠ []) (r : ℚ) :
    nearest x r (argmin (x.map (fun a => npabs (a - r)))) := by
  set m := x.map (fun a => npabs (a - r)) with hm
  have hmne : m ≠ [] := by
    rw [hm]; simpa using hx
  obtain ⟨hb, hmin, hfirst⟩ := argmin_spec m hmne
  have hblen : argmin m < x.length := by simpa [hm] using hb
  refine ⟨hblen, ?_, ?_⟩
  · intro j hj
    have := hmin j (by simpa [hm] using hj)
    rwa [hm, getD_map_npabs x r hblen, getD_map_npabs x r hj] at this
  · intro j hj
    have hjlen : j < x.length := lt_trans hj hblen
    have := hfirst j hj
    rwa [hm, getD_map_npabs x r hblen, getD_map_npabs x r hjlen] at this

/-- C5 (amended): for a nonempty array `x`, if `numpy.size(xref)` is `1`
(a scalar, or a singleton sequence, which the dispatch also sends down the
scalar branch), `search(xref, x)` returns the single index minimizing
`|x[i] - xref|`, lowest index on ties; if `xref` is a sequence of size
different from one, it returns the list of such indices, one per reference
value, in `xref`'s order. -/
theorem search_nearest (x : List ℚ) (hx : x ≠ []) (xref : Ref) :
    (xref.size = 1 → ∃ i, search xref x = SearchResult.idx i ∧ nearest x xref.bval i) ∧
    (∀ l, xref = Ref.seq l → l.length ≠ 1 →
      ∃ is, search xref x = SearchResult.idxs is ∧ is.length = l.length ∧
        ∀ k < l.length, nearest x (l.getD k 0) ( is.getD k 0)) := by
  constructor
  · intro hsize
    match xref with
    | .scalar q =>
        exact ⟨_, rfl, argmin_nearest x hx q⟩
    | .seq l =>
        have hl : l.length = 1 := hsize
        refine ⟨_, ?_, argmin_nearest x hx (l.getD 0 0)⟩
        simp [search, hl]
  · rintro l rfl hl
    refine ⟨l.map (fun y => argmin (x.map (fun a => npabs (a - y)))), ?_, by simp, ?_⟩
    · simp [search, hl]
    intro k hk
    have hk' : k < (l.map (fun y => argmin (x.map (fun a => npabs (a - y))))).length := by
      simpa using hk
    rw [List.getD_eq_getElem _ _ hk', List.getElem_map]
    rw [show l[k] = l.getD k 0 from (List.getD_eq_getElem l 0 hk).symm]
    exact argmin_nearest x hx _

/-- C5 witness: both branches at the spec's own examples,
`search(2.1, [0,1,2,3]) = 2` and `search([0.9, 3.2], [0,1,2,3]) = [1, 3]`. -/
theorem search_nearest_witness :
    (∃ i, search (Ref.scalar (21/10)) [(0:ℚ), 1, 2, 3] = SearchResult.idx i ∧
        nearest [(0:ℚ), 1, 2, 3] (Ref.scalar (21/10)).bval i) ∧
    (∃ is, search (Ref.seq [9/10, 16/5]) [(0:ℚ), 1, 2, 3] = SearchResult.idxs is ∧
        is.length = ([9/10, 16/5] : List ℚ).length ∧
        ∀ k < ([9/10, 16/5] : List ℚ).length,
          nearest [(0:ℚ), 1, 2, 3] (([9/10, 16/5] : List ℚ).getD k 0) ( is.getD k 0)) :=
  ⟨(search_nearest [0, 1, 2, 3] (by decide) (Ref.scalar (21/10))).1 rfl,
   (search_nearest [0, 1, 2, 3] (by decide) (Ref.seq [9/10, 16/5])).2
     [9/10, 16/5] rfl (by decide)⟩

/-- C5 counterexample: the claim says a sequence `xref` yields a list of
indices, but the singleton sequence `[2]` has `numpy.size == 1` and takes
the scalar branch, returning the bare index `2` and not a list. -/
theorem search_singleton_seq_scalar :
    search (Ref.seq [2]) [(0:ℚ), 1, 2, 3] = SearchResult.idx 2 ∧
    search (Ref.seq [2]) [(0:ℚ), 1, 2, 3] ≠ SearchResult.idxs [2] := by
  constructor
  · with_unfolding_all rfl
  · intro h
    rw [show search (Ref.seq [2]) [(0:ℚ), 1, 2, 3] = SearchResult.idx 2 by
      with_unfolding_all rfl] at h
    exact SearchResult.noConfusion h

/- ## `sortindex` -/

/-- Inserting index `i` into an index list sorted by the values of `x`:
`i` goes before the first index `j` with `x[i] ≤ x[j]`.  When every index
already present is larger than `i` (as in `sortindex` below), this places
`i` before indices of equal value, which is exactly the stable order. -/
def insertIdx (x : List ℚ) (i : Nat) : List Nat → List Nat
  | [] => [i]
  | j :: t => if x.getD i 0 ≤ x.getD j 0 then i :: j :: t else j :: insertIdx x i t

/-- Embedding of `sortindex(x)` with no keyword arguments:
`sorted(range(numpy.size(x)), key=lambda i: x[i])`.  Python's `sorted` is a
stable comparison sort keyed by `x[i]`, and a stable sort's output is
uniquely determined (sorted by key, original order among equal keys), so it
is modelled by the equivalent stable insertion sort over `range(len(x))`,
inserting the indices from the largest down to `0`. -/
def sortindex (x : List ℚ) : List Nat :=
  (List.range x.length).foldr (insertIdx x) []

/-- The stable-sort order on indices: sorted by value, the original index
order breaking ties. -/
def stableLex (x : List ℚ) (i j : Nat) : Prop :=
  x.getD i 0 < x.getD j 0 ∨ (x.getD i 0 = x.getD j 0 ∧ i < j)

theorem insertIdx_perm (x : List ℚ) (i : Nat) :
    ∀ l : List Nat, (insertIdx x i l).Perm (i :: l) := by
  intro l
  induction l with
  | nil => exact List.Perm.refl _
  | cons j t ih =>
      by_cases hc : x.getD i 0 ≤ x.getD j 0
      · rw [insertIdx, if_pos hc]
      · rw [insertIdx, if_neg hc]
        exact List.Perm.trans (List.Perm.cons j ih) (List.Perm.swap i j t)

theorem insertIdx_pairwise (x : List ℚ) (i : Nat) :
    ∀ l : List Nat, List.Pairwise (stableLex x) l → (∀ j ∈ l, i < j) →
      List.Pairwise (stableLex x) (insertIdx x i l) := by
  intro l
  induction l with
  | nil =>
      intro _ _
      exact List.pairwise_singleton _ i
  | cons j t ih =>
      intro hp hlt
      have hpj : ∀ m ∈ t, stableLex x j m := fun m hm => List.rel_of_pairwise_cons hp hm
      have hpt := hp.of_cons
      by_cases hc : x.getD i 0 ≤ x.getD j 0
      · rw [insertIdx, if_pos hc]
        refine List.Pairwise.cons ?_ hp
        intro m hm
        have him : i < m := hlt m hm
        have hle : x.getD i 0 ≤ x.getD m 0 := by
          rcases List.mem_cons.mp hm with rfl | hmt
          · exact hc
          · rcases hpj m hmt with hlt' | ⟨heq, -⟩
            · exact le_trans hc (le_of_lt hlt')
            · exact le_trans hc (le_of_eq heq)
        rcases lt_or_eq_of_le hle with h | h
        · exact Or.inl h
        · exact Or.inr ⟨h, him⟩
      · rw [insertIdx, if_neg hc]
        have hji : x.getD j 0 < x.getD i 0 := lt_of_not_le hc
        refine List.Pairwise.cons ?_ (ih hpt fun m hm => hlt m (List.mem_cons_of_mem j hm))
        intro m hm
        have hm' : m = i ∨ m ∈ t := by
          have := (insertIdx_perm x i t).mem_iff.mp hm
          simpa using this
        rcases hm' with rfl | hmt
        · exact Or.inl hji
        · exact hpj m hmt

theorem foldr_insertIdx_perm (x : List ℚ) :
    ∀ l : List Nat, ((l.foldr (insertIdx x) []).Perm l) := by
  intro l
  induction l with
  | nil => exact List.Perm.refl _
  | cons i t ih =>
      exact List.Perm.trans (insertIdx_perm x i _) (List.Perm.cons i ih)

theorem foldr_insertIdx_pairwise (x : List ℚ) :
    ∀ l : List Nat, List.Pairwise (· < ·) l →
      List.Pairwise (stableLex x) (l.foldr (insertIdx x) []) := by
  intro l
  induction l with
  | nil => intro _; exact List.Pairwise.nil
  | cons i t ih =>
      intro hp
      refine insertIdx_pairwise x i _ (ih hp.of_cons) ?_
      intro j hj
      have hjt : j ∈ t := (foldr_insertIdx_perm x t).mem_iff.mp hj
      exact List.rel_of_pairwise_cons hp hjt

/-- C8: `sortindex(x)` (with no extra configuration) returns a permutation
of `range(len(x))` reading `x` ascending, and the sort is stable: the
returned index list is pairwise ordered by `(value, original index)`, so
equal values keep their original relative order. -/
theorem sortindex_stable_sort (x : List ℚ) :
    (sortindex x).Perm (List.range x.length) ∧
    List.Pairwise (fun i j => x.getD i 0 ≤ x.getD j 0) (sortindex x) ∧
    List.Pairwise (stableLex x) (sortindex x) := by
  have hperm := foldr_insertIdx_perm x (List.range x.length)
  have hpair := foldr_insertIdx_pairwise x (List.range x.length)
    (List.pairwise_lt_range x.length)
  refine ⟨hperm, ?_, hpair⟩
  refine hpair.imp ?_
  intro i j h
  rcases h with h | ⟨h, -⟩
  · exact le_of_lt h
  · exact le_of_eq h

/- ## `bootstrap` -/

/-- The dynamic value passed to `bootstrap`: a numpy array, a Python list
of arrays, or another sequence of arrays such as a tuple. -/
inductive PyVal where
  | arr : List ℚ → PyVal
  | list : List (List ℚ) → PyVal
  | tuple : List (List ℚ) → PyVal
deriving DecidableEq, Repr

/-- The possible outputs of `scipy.random.randint(0, n, n)` (an alias of
`numpy.random.randint`): it requires `0 < n` (raising `ValueError: low >=
high` otherwise, even for size 0) and returns an array of `n` integers
drawn from `{0, ..., n-1}`. -/
def randintOk (n : Nat) (iran : List Nat) : Prop :=
  0 < n ∧ iran.length = n ∧ ∀ j ∈ iran, j < n

/-- numpy fancy indexing `x[iran]`: a new array listing `x[j]` for each
`j` of `iran`, raising `IndexError` if some index is out of range. -/
def npindex (x : List ℚ) (iran : List Nat) : Except String (List ℚ) :=
  if iran.all (fun j => decide (j < x.length)) then .ok (iran.map (fun j => x.getD j 0))
  else .error "IndexError: index out of bounds"

/-- The loop `for x in v: vboot.append(x[iran])`. -/
def bootList (iran : List Nat) : List (List ℚ) → Except String (List (List ℚ))
  | [] => .ok []
  | x :: t => do
      let r ← npindex x iran
      let rest ← bootList iran t
      return r :: rest

/-- The result of `bootstrap`: a single resampled array, or a list of
resampled arrays. -/
inductive BootOut where
  | arr : List ℚ → BootOut
  | list : List (List ℚ) → BootOut
deriving DecidableEq, Repr

/-- Embedding of `bootstrap(v)`, given the index array `iran` drawn by the external
random generator (`iran = scipy.random.randint(0, n, n)`, with
`n = v[0].size` in the list branch and `n = v.size` in the other branch).
The dispatch is `type(v)==list`, so exactly Python lists take the paired
branch; there `v[0]` raises `IndexError` when the list is empty.  Any
non-list value reaches `n = v.size`; a tuple has no `size` attribute, so a
tuple of arrays raises `AttributeError`. -/
def bootstrap (v : PyVal) (iran : List Nat) : Except String BootOut :=
  match v with
  | .list [] => .error "IndexError: list index out of range"
  | .list l => do
      let vboot ← bootList iran l
      return .list vboot
  | .arr x => do
      let vboot ← npindex x iran
      return .arr vboot
  | .tuple _ => .error "AttributeError: tuple object has no attribute size"

theorem getD_map_of_lt (f : α → β) (l : List α) {k : Nat} (hk : k < l.length)
    (d : α) (d' : β) : (l.map f).getD k d' = f (l.getD k d) := by
  have hk' : k < (l.map f).length := by simpa using hk
  rw [List.getD_eq_getElem _ _ hk', List.getD_eq_getElem _ _ hk, List.getElem_map]

theorem getD_mem_of_lt (l : List Nat) {k : Nat} (hk : k < l.length) :
    l.getD k 0 ∈ l := by
  rw [List.getD_eq_getElem _ _ hk]
  exact List.getElem_mem hk

theorem npindex_ok {x : List ℚ} {iran : List Nat} (h : ∀ j ∈ iran, j < x.length) :
    npindex x iran = Except.ok (iran.map (fun j => x.getD j 0)) := by
  rw [npindex, if_pos]
  rw [List.all_eq_true]
  intro j hj
  exact decide_eq_true (h j hj)

theorem bootList_ok {iran : List Nat} :
    ∀ {v : List (List ℚ)}, (∀ x ∈ v, ∀ j ∈ iran, j < x.length) →
      bootList iran v = Except.ok (v.map (fun x => iran.map (fun j => x.getD j 0))) := by
  intro v
  induction v with
  | nil => intro _; rfl
  | cons x t ih =>
      intro h
      have hx := npindex_ok (h x (List.mem_cons_self x t))
      have ht := ih (fun z hz => h z (List.mem_cons_of_mem x hz))
      simp only [bootList, hx, ht]
      rfl

/-- C1 (amended): for a nonempty list `v` of arrays all of length `n`
(`n ≥ 1`, which any realizable draw requires) and any index
array `iran` the generator can return, `bootstrap` returns a list of the
same number of arrays, each of length `n`, every array re-indexed by the
same draw: for every position `k` there is one drawn index `j` (namely
`iran[k]`) with `result[m][k] = v[m][j]` for every `m` simultaneously.
For a single-array input of length `n`, it returns that array re-indexed
by the draw. -/
theorem bootstrap_paired (v : List (List ℚ)) (iran : List Nat) (n : Nat)
    (hv : v ≠ []) (hlen : ∀ x ∈ v, x.length = n) (hr : randintOk n iran) :
    (∃ r, bootstrap (PyVal.list v) iran = Except.ok (BootOut.list r) ∧
      r.length = v.length ∧ (∀ m ∈ r, m.length = n) ∧
      ∀ k < n, ∃ j < n, ∀ m < v.length,
        (r.getD m []).getD k 0 = (v.getD m []).getD j 0) ∧
    (∀ x : List ℚ, x.length = n →
      ∃ r, bootstrap (PyVal.arr x) iran = Except.ok (BootOut.arr r) ∧
        r.length = n ∧ ∀ k < n, ∃ j < n, r.getD k 0 = x.getD j 0) := by
  obtain ⟨hn, hilen, hibnd⟩ := hr
  constructor
  · obtain ⟨x0, t0, rfl⟩ : ∃ x0 t0, v = x0 :: t0 := by
      cases v with
      | nil => exact absurd rfl hv
      | cons a b => exact ⟨a, b, rfl⟩
    have hok : bootList iran (x0 :: t0)
        = Except.ok ((x0 :: t0).map (fun x => iran.map (fun j => x.getD j 0))) :=
      bootList_ok (fun x hx j hj => by rw [hlen x hx]; exact hibnd j hj)
    refine ⟨(x0 :: t0).map (fun x => iran.map (fun j => x.getD j 0)), ?_, by simp, ?_, ?_⟩
    · simp only [bootstrap, hok]
      rfl
    · intro m hm
      obtain ⟨x, hx, rfl⟩ := List.mem_map.mp hm
      simp [hilen]
    · intro k hk
      have hki : k < iran.length := by omega
      refine ⟨iran.getD k 0, hibnd _ (getD_mem_of_lt iran hki), ?_⟩
      intro m hm
      rw [getD_map_of_lt _ (x0 :: t0) hm [] []]
      rw [getD_map_of_lt _ iran hki 0 0]
  · intro x hx
    have hok : npindex x iran = Except.ok (iran.map (fun j => x.getD j 0)) :=
      npindex_ok (fun j hj => by rw [hx]; exact hibnd j hj)
    refine ⟨iran.map (fun j => x.getD j 0), ?_, by simp [hilen], ?_⟩
    · simp only [bootstrap, hok]
      rfl
    · intro k hk
      have hki : k < iran.length := by omega
      refine ⟨iran.getD k 0, hibnd _ (getD_mem_of_lt iran hki), ?_⟩
      rw [getD_map_of_lt _ iran hki 0 0]

/-- C1 witness: both branches at `v = [[1,2],[3,4]]`, `iran = [1,1]`,
`n = 2`. -/
theorem bootstrap_paired_witness :
    (∃ r, bootstrap (PyVal.list [[(1:ℚ), 2], [3, 4]]) [1, 1]
        = Except.ok (BootOut.list r) ∧
      r.length = ([[(1:ℚ), 2], [3, 4]] : List (List ℚ)).length ∧
      (∀ m ∈ r, m.length = 2) ∧
      ∀ k < 2, ∃ j < 2, ∀ m < ([[(1:ℚ), 2], [3, 4]] : List (List ℚ)).length,
        (r.getD m []).getD k 0 = (([[(1:ℚ), 2], [3, 4]] : List (List ℚ)).getD m []).getD j 0) ∧
    (∀ x : List ℚ, x.length = 2 →
      ∃ r, bootstrap (PyVal.arr x) [1, 1] = Except.ok (BootOut.arr r) ∧
        r.length = 2 ∧ ∀ k < 2, ∃ j < 2, r.getD k 0 = x.getD j 0) :=
  bootstrap_paired [[(1:ℚ), 2], [3, 4]] [1, 1] 2 (by decide) (by decide)
    ⟨by decide, by decide, by decide⟩

/-- C1 counterexample: the empty Python list is a list of numeric arrays
all of the same length (vacuously, for any `n`), yet `bootstrap` evaluates
`v[0].size` and raises `IndexError` for every draw, instead of returning a
list with the same (zero) number of arrays. -/
theorem bootstrap_empty_list_raises :
    bootstrap (PyVal.list []) [] = Except.error "IndexError: list index out of range" := rfl

/-- C10: `bootstrap` dispatches on the exact runtime type `list`, so a
tuple of arrays takes the single-array branch, where reading the `size`
attribute raises `AttributeError` — `bootstrap` raises on a tuple of
arrays instead of returning a resampled collection. -/
theorem bootstrap_tuple_raises (l : List (List ℚ)) (iran : List Nat) :
    bootstrap (PyVal.tuple l) iran
      = Except.error "AttributeError: tuple object has no attribute size" := rfl

/- ## Frame model: the functions do not mutate their arguments -/

/-- A heap of allocated numpy arrays, for the frame claim.  `delnan`,
`delweird` and `bootstrap` build their results exclusively from numpy
primitives that return freshly allocated arrays (`numpy.delete`, boolean
and fancy indexing); in heap-passing form each call therefore only reads
the input references and appends new arrays. -/
abbrev Store := List (List NumVal)

/-- Allocate a fresh array: the extended heap and the new reference. -/
def alloc (s : Store) (a : List NumVal) : Store × Nat :=
  (s ++ [a], s.length)

/-- Read the array an argument reference designates. -/
def readRef (s : Store) (r : Nat) : List NumVal :=
  s.getD r []

/-- Heap-passing form of `delnan`: reads its argument and allocates the
new array `numpy.delete` returns. -/
def delnanS (s : Store) (r : Nat) : Store × Nat :=
  alloc s (delnan (readRef s r))

/-- Heap-passing form of `delweird`. -/
def delweirdS (s : Store) (r : Nat) : Store × Nat :=
  alloc s (delweird (readRef s r))

/-- Heap-passing form of `bootstrap` on a single array: fancy indexing
`v[iran]` allocates the new array (indices assumed in range here; the
out-of-range `IndexError` case is handled in `bootstrap` above). -/
def bootstrapArrS (s : Store) (r : Nat) (iran : List Nat) : Store × Nat :=
  alloc s (iran.map (fun j => (readRef s r).getD j (NumVal.fin 0)))

/-- Heap-passing form of `bootstrap` on a list of array references: the
loop `for x in v: vboot.append(x[iran])` allocates one fresh array per
input reference and collects the new references in a new list. -/
def bootstrapListS (s : Store) (rs : List Nat) (iran : List Nat) :
    Store × List Nat :=
  match rs with
  | [] => (s, [])
  | r :: t =>
      let p := alloc s (iran.map (fun j => (readRef s r).getD j (NumVal.fin 0)))
      let q := bootstrapListS p.1 t iran
      (q.1, p.2 :: q.2)

/-- C9: `delnan`, `delweird` and `bootstrap` never mutate their input
arguments: in heap-passing form every call returns a heap that extends the
original one verbatim (`s ++ new`), so every input array — indeed every
previously allocated array — is unchanged after the call, the result being
freshly allocated. -/
theorem no_mutation (s : Store) (r : Nat) (rs : List Nat) (iran : List Nat) :
    (∃ new, (delnanS s r).1 = s ++ new) ∧
    (∃ new, (delweirdS s r).1 = s ++ new) ∧
    (∃ new, (bootstrapArrS s r iran).1 = s ++ new) ∧
    (∃ new, (bootstrapListS s rs iran).1 = s ++ new) := by
  refine ⟨⟨_, rfl⟩, ⟨_, rfl⟩, ⟨_, rfl⟩, ?_⟩
  induction rs generalizing s with
  | nil => exact ⟨[], by simp [bootstrapListS]⟩
  | cons r0 t ih =>
      obtain ⟨new, hnew⟩ :=
        ih (s ++ [iran.map (fun j => (readRef s r0).getD j (NumVal.fin 0))])
      refine ⟨[iran.map (fun j => (readRef s r0).getD j (NumVal.fin 0))] ++ new, ?_⟩
      rw [bootstrapListS]
      simpa [alloc] using hnew

end Lsd
